import Mathlib

/-!
Verification of `utils/visualizations.py` from the pytorch-GAT repository.

The file models the numeric values stored in a NumPy array (finite
rationals, plus the two infinities that `np.isinf` detects), 2D arrays
with their shape, and the pure computational content of
`convert_adj_to_edge_index`, `get_num_nodes_from_edge_index`,
`plot_in_out_degree_distributions` (its degree/histogram bookkeeping)
and `visualize_graph` (its control flow: edge-index preprocessing,
backend dispatch, and the Cora label-to-color assignment).
Out-of-bounds NumPy indexing and Python `KeyError`/`assert`/`raise`
are modelled with `Option`/`Except`.  Plot rendering, matplotlib and
the igraph layout engine are external side effects with no return
value feeding back into the logic, and are not modelled; the one
numeric computation the code performs on library output (the
edge-betweenness weight normalization) is modelled over `ℝ`.
-/

/-- A scalar held in a NumPy array: a finite value (modelled as `ℚ`) or
one of the two infinities that `np.isinf` reports. -/
inductive NpVal where
  | fin (q : ℚ)
  | pinf
  | ninf
deriving DecidableEq, Repr

/-- `np.isinf` on a single scalar. -/
def NpVal.isInf : NpVal → Bool
  | .fin _ => false
  | .pinf => true
  | .ninf => true

/-- Reading a scalar back as a (nonnegative-integer) node id, as happens
when a row of an integer ndarray is used as a list of node ids. -/
def NpVal.toNodeId : NpVal → Nat
  | .fin q => q.floor.toNat
  | .pinf => 0
  | .ninf => 0

/-- A 2D NumPy array: its shape and an entry function (entries outside
the shape are never consulted by the modelled code). -/
structure NDArray where
  shape0 : Nat
  shape1 : Nat
  entry : Nat → Nat → NpVal

/-- Build a 2D array from nested lists of rationals, the way
`np.array([[...], [...]])` does: shape is (number of rows, length of the
first row). -/
def NDArray.ofRows (rows : List (List ℚ)) : NDArray :=
  ⟨rows.length, (rows.headD []).length,
   fun i j => NpVal.fin ((rows.getD i []).getD j 0)⟩

/-- Build a 2D array from nested lists of `NpVal` (used for matrices
holding infinities). -/
def NDArray.ofValRows (rows : List (List NpVal)) : NDArray :=
  ⟨rows.length, (rows.headD []).length,
   fun i j => (rows.getD i []).getD j (NpVal.fin 0)⟩

/-- `np.isinf(adjacency_matrix).any()`: does any in-shape entry hold an
infinity? -/
def NDArray.anyInf (A : NDArray) : Bool :=
  (List.range A.shape0).any fun i =>
    (List.range A.shape1).any fun j => (A.entry i j).isInf

/-- Row `r` of the array read as a list of node ids, as in
`edge_index[0]` / `edge_index[1]`. -/
def NDArray.row (A : NDArray) (r : Nat) : List Nat :=
  (List.range A.shape1).map fun j => (A.entry r j).toNodeId

/-- `active_value = 0 if np.isinf(adjacency_matrix).any() else 1`
(line 24 of visualizations.py). -/
def activeValue (A : NDArray) : ℚ :=
  if A.anyInf then 0 else 1

/-- The double loop of `convert_adj_to_edge_index` (lines 26-30): scan
rows then columns, appending `[src, trg]` whenever the cell compares
equal to the active value.  Python's `==` between an array scalar and
the int `active_value` is true only for a finite scalar of that value. -/
def convertPairs (A : NDArray) (active : ℚ) : List (Nat × Nat) :=
  (List.range A.shape0).flatMap fun i =>
    (List.range A.shape1).filterMap fun j =>
      if A.entry i j = NpVal.fin active then some (i, j) else none

/-- `convert_adj_to_edge_index` on an ndarray argument: assert the shape
is square, detect the active value, collect the matching cells, and
return the `(2, N)` transpose as (sources row, targets row).  The shape
assertion failure is the `Except.error` case. -/
def convert_adj_to_edge_index (A : NDArray) : Except String (List Nat × List Nat) :=
  if A.shape0 = A.shape1 then
    let pairs := convertPairs A (activeValue A)
    Except.ok (pairs.map Prod.fst, pairs.map Prod.snd)
  else
    Except.error ("Expected square shape got = (" ++ toString A.shape0 ++ ", "
      ++ toString A.shape1 ++ ").")

/-- A Python runtime value passed where an ndarray is expected: either an
actual ndarray or some other object, carrying its type name. -/
inductive PyObj where
  | ndarray (A : NDArray)
  | other (typeName : String)

/-- `convert_adj_to_edge_index` including its leading
`assert isinstance(adjacency_matrix, np.ndarray)` (line 16): a
non-ndarray argument fails that type assertion before anything else. -/
def convert_adj_to_edge_index_py (x : PyObj) : Except String (List Nat × List Nat) :=
  match x with
  | .other t => Except.error ("Expected NumPy array got " ++ t ++ ".")
  | .ndarray A => convert_adj_to_edge_index A

/-- The shared preprocessing of `plot_in_out_degree_distributions`
(lines 42-44) and `visualize_graph` (lines 90-92): a square input array
is unconditionally routed through `convert_adj_to_edge_index`; a
non-square one is used directly, its rows 0 and 1 being the source and
target id lists.  On a square array the conversion's own shape assert
always passes, so no error can arise here. -/
def preprocessEdgeIndex (A : NDArray) : List Nat × List Nat :=
  if A.shape0 = A.shape1 then
    let pairs := convertPairs A (activeValue A)
    (pairs.map Prod.fst, pairs.map Prod.snd)
  else
    (A.row 0, A.row 1)

/-- `get_num_nodes_from_edge_index` (lines 10-12):
`len(set(edge_index[0]).union(set(edge_index[1])))`, the number of
distinct ids occurring as a source or a target. -/
def get_num_nodes_from_edge_index (ei : List Nat × List Nat) : Nat :=
  ((ei.1 ++ ei.2).dedup).length

/-- `arr[i] += 1` on a NumPy integer array of the given contents:
in bounds it increments, out of bounds NumPy raises `IndexError`,
modelled as `none`. -/
def incAt (l : List Nat) (i : Nat) : Option (List Nat) :=
  if i < l.length then some (l.set i (l.getD i 0 + 1)) else none

/-- The per-edge loop of `plot_in_out_degree_distributions`
(lines 54-58): for each (source, target) pair increment the source's
out-degree then the target's in-degree, stopping with `none` at the
first out-of-bounds index. -/
def degreeLoop : List (Nat × Nat) → List Nat → List Nat → Option (List Nat × List Nat)
  | [], ins, outs => some (ins, outs)
  | (s, t) :: rest, ins, outs =>
    match incAt outs s with
    | none => none
    | some outs' =>
      match incAt ins t with
      | none => none
      | some ins' => degreeLoop rest ins' outs'

/-- Degree-array construction of `plot_in_out_degree_distributions`
(lines 46-58): size both arrays by `get_num_nodes_from_edge_index`,
then run the per-edge increment loop over the zipped edge columns. -/
def computeDegreeArrays (ei : List Nat × List Nat) : Option (List Nat × List Nat) :=
  let n := get_num_nodes_from_edge_index ei
  degreeLoop (ei.1.zip ei.2) (List.replicate n 0) (List.replicate n 0)

/-- `np.max` on an integer list: an error (`none`) on an empty array,
otherwise the maximum element. -/
def npMaxNat : List Nat → Option Nat
  | [] => none
  | h :: t => some (t.foldl max h)

/-- Histogram construction (lines 60-62): an array of zeros of length
`np.max(out_degrees) + 1`, then one increment per node at index equal
to its out-degree. -/
def computeHist (outs : List Nat) : Option (List Nat) :=
  match npMaxNat outs with
  | none => none
  | some m => outs.foldlM (fun h d => incAt h d) (List.replicate (m + 1) 0)

/-- The data `plot_in_out_degree_distributions` computes before handing
everything to matplotlib. -/
structure DegreeStats where
  num_of_nodes : Nat
  in_degrees : List Nat
  out_degrees : List Nat
  hist : List Nat
deriving DecidableEq, Repr

/-- The computational content of `plot_in_out_degree_distributions`
(lines 42-62): preprocess the edge index, count nodes, build the degree
arrays and the out-degree histogram.  `none` models the Python call
aborting with an `IndexError`. -/
def plot_in_out_degree_distributions (A : NDArray) : Option DegreeStats :=
  let ei := preprocessEdgeIndex A
  let n := get_num_nodes_from_edge_index ei
  match computeDegreeArrays ei with
  | none => none
  | some (ins, outs) =>
    match computeHist outs with
    | none => none
    | some h => some ⟨n, ins, outs, h⟩

/-- Modelled from the spec: the `GraphVisualizationTool` enumeration lives
in `utils/constants.py`, which is not part of this fragment; the spec
describes "an enumerated backend selector" with "two supported variants".
Python being dynamically typed, `visualize_graph` can also receive any
other runtime value; `other nm` stands for such a value whose `.name`
attribute is `nm`. -/
inductive GraphVisualizationTool where
  | NETWORKX
  | IGRAPH
  | other (nm : String)
deriving DecidableEq, Repr

/-- Modelled from the spec: `DatasetType.CORA.name` from
`utils/constants.py` (not part of this fragment); the spec names Cora as
the one dataset with a dedicated 7-color scheme. -/
def datasetTypeCoraName : String := "CORA"

/-- Python's `str.lower()` on a single ASCII character. -/
def pyCharLower (c : Char) : Char :=
  if 'A' ≤ c ∧ c ≤ 'Z' then Char.ofNat (c.toNat + 32) else c

/-- Python's `str.lower()` (the inputs here are ASCII dataset names). -/
def pyLower (s : String) : String :=
  String.mk (s.data.map pyCharLower)

/-- The fixed 7-entry `label_to_color_map` dict of the igraph branch
(line 136). -/
def label_to_color_map : List (Int × String) :=
  [(0, "red"), (1, "blue"), (2, "green"), (3, "orange"),
   (4, "yellow"), (5, "pink"), (6, "gray")]

/-- Python dict subscript `d[k]`: `none` is a `KeyError`. -/
def dictGet : List (Int × String) → Int → Option String
  | [], _ => none
  | (k', v) :: rest, k => if k = k' then some v else dictGet rest k

/-- The list comprehension
`[label_to_color_map[label] for label in node_labels]` (line 137):
it stops with a `KeyError` at the first label outside the map. -/
def lookupColors : List Int → Option (List String)
  | [] => some []
  | l :: rest =>
    match dictGet label_to_color_map l, lookupColors rest with
    | some c, some cs => some (c :: cs)
    | _, _ => none

/-- Vertex-color assignment of the igraph branch (lines 135-139): when
the dataset name case-insensitively equals Cora's, every node label is
looked up in the fixed color map (a missing key aborting the call);
for any other dataset name the labels are not consulted and igraph's
default coloring is kept (`none`). -/
def assignVertexColors (dataset_name : String) (node_labels : List Int) :
    Except String (Option (List String)) :=
  if pyLower dataset_name = pyLower datasetTypeCoraName then
    match lookupColors node_labels with
    | some cs => Except.ok (some cs)
    | none => Except.error "KeyError: label missing from label_to_color_map"
  else
    Except.ok none

/-- What a `visualize_graph` call hands to the rendering backend: the
networkx branch passes the edge tuples; the igraph branch passes the
vertex count, the edge tuples and the per-vertex colors (when the Cora
scheme applies).  The numeric styling (edge widths from betweenness,
vertex sizes, layout coordinates) is produced by igraph library calls
and is modelled separately (`edge_weights_raw_normalized`). -/
inductive Render where
  | networkx (edges : List (Nat × Nat))
  | igraph (numVertices : Nat) (edges : List (Nat × Nat))
      (vertexColors : Option (List String))
deriving DecidableEq, Repr

/-- Control flow of `visualize_graph` (lines 85-152): preprocess the
edge index (a square array goes through `convert_adj_to_edge_index`),
count the nodes, zip the two rows into edge tuples, then dispatch on
the visualization tool; a selector that is neither `NETWORKX` nor
`IGRAPH` reaches the final `raise` with the message naming the tool. -/
def visualize_graph (A : NDArray) (node_labels : List Int)
    (dataset_name : String) (tool : GraphVisualizationTool) :
    Except String Render :=
  let ei := preprocessEdgeIndex A
  let n := get_num_nodes_from_edge_index ei
  let tuples := ei.1.zip ei.2
  match tool with
  | .NETWORKX => Except.ok (Render.networkx tuples)
  | .IGRAPH =>
    match assignVertexColors dataset_name node_labels with
    | .ok cs => Except.ok (Render.igraph n tuples cs)
    | .error e => Except.error e
  | .other nm =>
    Except.error ("Visualization tool " ++ nm ++ " not supported.")

/-- `np.max` over a list of reals: the maximum element of a nonempty
list (the empty case, on which NumPy errors, is given a junk value 0). -/
noncomputable def npMaxR : List ℝ → ℝ
  | [] => 0
  | h :: t => t.foldl max h

/-- Line 126: `np.clip(np.log(ig_graph.edge_betweenness()), a_min=0,
a_max=None)`, taking the list of edge-betweenness values as input. -/
noncomputable def edge_weights_raw (betweenness : List ℝ) : List ℝ :=
  betweenness.map fun b => max (Real.log b) 0

/-- Line 127: `edge_weights_raw / np.max(edge_weights_raw)`.  NumPy
produces NaN entries when the maximum is 0 (0/0); the Lean model's
division by zero yields 0 — in both semantics the result differs
from 1. -/
noncomputable def edge_weights_raw_normalized (betweenness : List ℝ) : List ℝ :=
  (edge_weights_raw betweenness).map fun w => w / npMaxR (edge_weights_raw betweenness)

/-- An adjacency matrix rebuilt from an edge list: 1 at every returned
(source, target) pair, 0 elsewhere (the reconstruction of claim C1). -/
def rebuildAdj (pairs : List (Nat × Nat)) : Nat → Nat → NpVal :=
  fun i j => if (i, j) ∈ pairs then NpVal.fin 1 else NpVal.fin 0

/-- All cells of an `h × w` array in row-major order. -/
def rowMajorCells (h w : Nat) : List (Nat × Nat) :=
  (List.range h).flatMap fun i => (List.range w).map fun j => (i, j)

/-! ### Helper lemmas -/

theorem mem_convertPairs {A : NDArray} {a : ℚ} {i j : Nat} :
    (i, j) ∈ convertPairs A a ↔
      i < A.shape0 ∧ j < A.shape1 ∧ A.entry i j = NpVal.fin a := by
  constructor
  · intro h
    simp only [convertPairs, List.mem_flatMap, List.mem_range,
      List.mem_filterMap] at h
    obtain ⟨i', hi', j', hj', hij⟩ := h
    by_cases hc : A.entry i' j' = NpVal.fin a
    · simp only [hc, if_pos, Option.some.injEq, Prod.mk.injEq] at hij
      obtain ⟨rfl, rfl⟩ := hij
      exact ⟨hi', hj', hc⟩
    · simp [hc] at hij
  · rintro ⟨hi, hj, hc⟩
    simp only [convertPairs, List.mem_flatMap, List.mem_range,
      List.mem_filterMap]
    exact ⟨i, hi, j, ⟨hj, by simp [hc]⟩⟩

theorem zip_fst_snd (l : List (Nat × Nat)) :
    (l.map Prod.fst).zip (l.map Prod.snd) = l := by
  rw [List.zip_map']
  simp

theorem anyInf_iff (A : NDArray) :
    A.anyInf = true ↔
      ∃ i, i < A.shape0 ∧ ∃ j, j < A.shape1 ∧ (A.entry i j).isInf = true := by
  simp [NDArray.anyInf, List.any_eq_true, List.mem_range]

theorem filterMap_if_eq_filter_map {α β : Type} (l : List α) (p : α → Prop)
    [DecidablePred p] (f : α → β) :
    l.filterMap (fun x => if p x then some (f x) else none)
      = (l.filter (fun x => decide (p x))).map f := by
  induction l with
  | nil => rfl
  | cons x xs ih =>
    by_cases h : p x <;>
      simp [List.filterMap_cons, List.filter_cons, h, ih]

theorem convertPairs_eq_filter (A : NDArray) (a : ℚ) :
    convertPairs A a = (rowMajorCells A.shape0 A.shape1).filter
      (fun p => decide (A.entry p.1 p.2 = NpVal.fin a)) := by
  unfold convertPairs rowMajorCells
  rw [List.filter_flatMap]
  congr 1
  funext i
  rw [List.filter_map]
  rw [filterMap_if_eq_filter_map (List.range A.shape1)
    (fun j => A.entry i j = NpVal.fin a) (fun j => (i, j))]
  rfl

theorem incAt_length {l l' : List Nat} {i : Nat} (h : incAt l i = some l') :
    l'.length = l.length := by
  unfold incAt at h
  by_cases hi : i < l.length
  · simp only [if_pos hi, Option.some.injEq] at h
    simp [← h]
  · simp [hi] at h

theorem incAt_isSome {l : List Nat} {i : Nat} (h : i < l.length) :
    incAt l i = some (l.set i (l.getD i 0 + 1)) := by
  simp [incAt, h]

theorem degreeLoop_ok (pairs : List (Nat × Nat)) :
    ∀ (ins outs : List Nat),
      (∀ p ∈ pairs, p.1 < outs.length ∧ p.2 < ins.length) →
      ∃ ins' outs', degreeLoop pairs ins outs = some (ins', outs') ∧
        ins'.length = ins.length ∧ outs'.length = outs.length := by
  induction pairs with
  | nil => exact fun ins outs _ => ⟨ins, outs, rfl, rfl, rfl⟩
  | cons p rest ih =>
    intro ins outs h
    obtain ⟨s, t⟩ := p
    have hs : s < outs.length := (h (s, t) (List.mem_cons_self _ _)).1
    have ht : t < ins.length := (h (s, t) (List.mem_cons_self _ _)).2
    have hrest : ∀ q ∈ rest,
        q.1 < (outs.set s (outs.getD s 0 + 1)).length ∧
        q.2 < (ins.set t (ins.getD t 0 + 1)).length := by
      intro q hq
      have := h q (List.mem_cons_of_mem _ hq)
      simpa using this
    obtain ⟨ins', outs', heq, hlen1, hlen2⟩ :=
      ih (ins.set t (ins.getD t 0 + 1)) (outs.set s (outs.getD s 0 + 1)) hrest
    refine ⟨ins', outs', ?_, ?_, ?_⟩
    · simp only [degreeLoop, incAt_isSome hs, incAt_isSome ht]
      exact heq
    · simpa using hlen1
    · simpa using hlen2

theorem dictGet_color_isSome (l : Int) :
    (dictGet label_to_color_map l).isSome = true ↔ 0 ≤ l ∧ l ≤ 6 := by
  simp only [label_to_color_map, dictGet]
  split_ifs <;> simp_all
  omega

theorem lookupColors_some_iff (ls : List Int) :
    (∃ cs, lookupColors ls = some cs) ↔ ∀ l ∈ ls, 0 ≤ l ∧ l ≤ 6 := by
  induction ls with
  | nil => simp [lookupColors]
  | cons l rest ih =>
    constructor
    · rintro ⟨cs, hcs⟩
      unfold lookupColors at hcs
      cases hd : dictGet label_to_color_map l with
      | none => rw [hd] at hcs; simp at hcs
      | some c =>
        rw [hd] at hcs
        cases hr : lookupColors rest with
        | none => rw [hr] at hcs; simp at hcs
        | some cs' =>
          intro x hx
          rcases List.mem_cons.mp hx with rfl | hmem
          · exact (dictGet_color_isSome x).mp (by simp [hd])
          · exact ih.mp ⟨cs', hr⟩ x hmem
    · intro hall
      have h1 : (dictGet label_to_color_map l).isSome = true :=
        (dictGet_color_isSome l).mpr (hall l (List.mem_cons_self _ _))
      obtain ⟨cs, hcs⟩ := ih.mpr (fun x hx => hall x (List.mem_cons_of_mem _ hx))
      cases hd : dictGet label_to_color_map l with
      | none => rw [hd] at h1; simp at h1
      | some c => exact ⟨c :: cs, by unfold lookupColors; rw [hd, hcs]⟩

theorem foldl_max_le_init (t : List ℝ) (b : ℝ) : b ≤ t.foldl max b := by
  induction t generalizing b with
  | nil => exact le_refl b
  | cons x xs ih => exact le_trans (le_max_left b x) (ih (max b x))

theorem mem_le_foldl_max (t : List ℝ) (b : ℝ) : ∀ a ∈ t, a ≤ t.foldl max b := by
  induction t generalizing b with
  | nil => simp
  | cons x xs ih =>
    intro a ha
    rcases List.mem_cons.mp ha with rfl | h
    · exact le_trans (le_max_right b a) (foldl_max_le_init xs (max b a))
    · exact ih (max b x) a h

theorem le_npMaxR {a : ℝ} {l : List ℝ} (h : a ∈ l) : a ≤ npMaxR l := by
  cases l with
  | nil => simp at h
  | cons x xs =>
    rcases List.mem_cons.mp h with rfl | hmem
    · exact foldl_max_le_init xs a
    · exact mem_le_foldl_max xs x a hmem

theorem foldl_max_div (t : List ℝ) (b M : ℝ) (hM : 0 ≤ M) :
    (t.map (fun w => w / M)).foldl max (b / M) = (t.foldl max b) / M := by
  induction t generalizing b with
  | nil => rfl
  | cons x xs ih =>
    simp only [List.map_cons, List.foldl_cons]
    rw [max_div_div_right hM b x] at *
    exact ih (max b x)

theorem npMaxR_map_div (l : List ℝ) (M : ℝ) (hM : 0 ≤ M) (hne : l ≠ []) :
    npMaxR (l.map (fun w => w / M)) = npMaxR l / M := by
  cases l with
  | nil => exact absurd rfl hne
  | cons h t =>
    simp only [List.map_cons, npMaxR]
    exact foldl_max_div t h M hM

/-! ### Claim theorems -/

/-- C5: for the edge index with edges (0,1), (1,2), (2,0) — the `(2, 3)`
array `[[0,1,2],[1,2,0]]` — `plot_in_out_degree_distributions` computes
node count 3, in-degree array `[1,1,1]`, out-degree array `[1,1,1]` and
out-degree frequency histogram `[0,3]`. -/
theorem c5_concrete_degree_stats :
    plot_in_out_degree_distributions (NDArray.ofRows [[0, 1, 2], [1, 2, 0]])
      = some ⟨3, [1, 1, 1], [1, 1, 1], [0, 3]⟩ := by decide

/-- C6: `convert_adj_to_edge_index` fails its assertion-style contract
checks before producing any edge list: a non-square ndarray fails the
shape assertion with the shape in the message, and a non-ndarray input
fails the type assertion with the offending type in the message. -/
theorem c6_contract_violations :
    (∀ A : NDArray, A.shape0 ≠ A.shape1 →
      convert_adj_to_edge_index_py (PyObj.ndarray A)
        = Except.error ("Expected square shape got = (" ++ toString A.shape0
            ++ ", " ++ toString A.shape1 ++ ").")) ∧
    (∀ t : String, convert_adj_to_edge_index_py (PyObj.other t)
        = Except.error ("Expected NumPy array got " ++ t ++ ".")) := by
  constructor
  · intro A h
    simp [convert_adj_to_edge_index_py, convert_adj_to_edge_index, h]
  · intro t
    rfl

/-- Witness for C6 at the non-square `(2, 1)` array `[[0],[2]]` and at a
non-ndarray input of type `list`. -/
theorem c6_witness :
    convert_adj_to_edge_index_py (PyObj.ndarray (NDArray.ofRows [[0], [2]]))
        = Except.error "Expected square shape got = (2, 1)." ∧
    convert_adj_to_edge_index_py (PyObj.other "list")
        = Except.error "Expected NumPy array got list." :=
  ⟨c6_contract_violations.1 (NDArray.ofRows [[0], [2]]) (by decide),
   c6_contract_violations.2 "list"⟩

/-- C7: for every visualization-tool value other than `NETWORKX` and
`IGRAPH`, `visualize_graph` raises an explicit error whose message names
the unsupported tool, and returns no render. -/
theorem c7_unsupported_tool (A : NDArray) (node_labels : List Int)
    (dataset_name nm : String) :
    visualize_graph A node_labels dataset_name (GraphVisualizationTool.other nm)
      = Except.error ("Visualization tool " ++ nm ++ " not supported.") :=
  rfl

/-- C9: `plot_in_out_degree_distributions` and `visualize_graph`
unconditionally route any input array whose two dimensions coincide
through `convert_adj_to_edge_index`; in particular the genuine two-edge
edge index `[[0,1],[1,2]]` (shape `(2, 2)`) is reinterpreted as a 2×2
adjacency matrix, yielding edges `([0,1],[1,0])` instead of the given
`([0,1],[1,2])`. -/
theorem c9_square_reinterpreted :
    (∀ A : NDArray, A.shape0 = A.shape1 →
      Except.ok (preprocessEdgeIndex A) = convert_adj_to_edge_index A) ∧
    (preprocessEdgeIndex (NDArray.ofRows [[0, 1], [1, 2]]) = ([0, 1], [1, 0]) ∧
     ((NDArray.ofRows [[0, 1], [1, 2]]).row 0, (NDArray.ofRows [[0, 1], [1, 2]]).row 1)
        = ([0, 1], [1, 2]) ∧
     (([0, 1], [1, 0]) : List Nat × List Nat) ≠ ([0, 1], [1, 2])) := by
  constructor
  · intro A h
    simp [preprocessEdgeIndex, convert_adj_to_edge_index, h]
  · refine ⟨by decide, by decide, by decide⟩

/-- Witness for C9 at the square array `[[0,1],[1,0]]`. -/
theorem c9_witness :
    Except.ok (preprocessEdgeIndex (NDArray.ofRows [[0, 1], [1, 0]]))
      = convert_adj_to_edge_index (NDArray.ofRows [[0, 1], [1, 0]]) :=
  c9_square_reinterpreted.1 (NDArray.ofRows [[0, 1], [1, 0]]) rfl

/-- C4 counterexample: for the edge index `[[0],[2]]` (a single edge
0 → 2), the code sizes the degree arrays by the number of distinct node
ids (2), not by the maximum node id plus one (3); incrementing the
in-degree of target 2 then indexes out of bounds and the call aborts,
refuting the claim that the per-edge increments never index out of
bounds. -/
theorem c4_counterexample :
    preprocessEdgeIndex (NDArray.ofRows [[0], [2]]) = ([0], [2]) ∧
    get_num_nodes_from_edge_index ([0], [2]) = 2 ∧
    plot_in_out_degree_distributions (NDArray.ofRows [[0], [2]]) = none := by
  decide

/-- C4 amended: the degree arrays are sized by the number of distinct
node ids appearing as a source or target (not by the maximum id plus
one); when every node id is below that count — i.e. the ids are exactly
the dense range `0..count-1` — the per-edge increments all stay in
bounds and the arrays keep that size. -/
theorem c4_amended_dense_ids (ei : List Nat × List Nat)
    (hids : ∀ v ∈ ei.1 ++ ei.2, v < get_num_nodes_from_edge_index ei) :
    ∃ ins outs, computeDegreeArrays ei = some (ins, outs) ∧
      ins.length = get_num_nodes_from_edge_index ei ∧
      outs.length = get_num_nodes_from_edge_index ei := by
  obtain ⟨ins', outs', heq, h1, h2⟩ := degreeLoop_ok (ei.1.zip ei.2)
    (List.replicate (get_num_nodes_from_edge_index ei) 0)
    (List.replicate (get_num_nodes_from_edge_index ei) 0)
    (by
      rintro ⟨a, b⟩ hp
      obtain ⟨ha, hb⟩ := List.of_mem_zip hp
      constructor
      · simpa using hids a (List.mem_append.mpr (Or.inl ha))
      · simpa using hids b (List.mem_append.mpr (Or.inr hb)))
  exact ⟨ins', outs', heq, by simpa using h1, by simpa using h2⟩

/-- Witness for the amended C4 at the dense edge index
`([0,1,2],[1,2,0])`. -/
theorem c4_witness :
    ∃ ins outs, computeDegreeArrays ([0, 1, 2], [1, 2, 0]) = some (ins, outs) ∧
      ins.length = get_num_nodes_from_edge_index ([0, 1, 2], [1, 2, 0]) ∧
      outs.length = get_num_nodes_from_edge_index ([0, 1, 2], [1, 2, 0]) :=
  c4_amended_dense_ids ([0, 1, 2], [1, 2, 0]) (by decide)

/-- C10: in the igraph branch, when the dataset name lowercases to
Cora's, the vertex-color assignment succeeds exactly when every node
label lies in 0..6, any label outside that range aborting the call with
a lookup failure on the fixed 7-entry color map; for any other dataset
name the node labels are never consulted and the default coloring is
kept. -/
theorem c10_cora_label_colors :
    pyLower datasetTypeCoraName = "cora" ∧
    ∀ (dataset_name : String) (node_labels : List Int),
      (pyLower dataset_name = pyLower datasetTypeCoraName →
        (((∀ l ∈ node_labels, 0 ≤ l ∧ l ≤ 6) ↔
            ∃ cs, assignVertexColors dataset_name node_labels
              = Except.ok (some cs)) ∧
         (¬ (∀ l ∈ node_labels, 0 ≤ l ∧ l ≤ 6) →
            assignVertexColors dataset_name node_labels
              = Except.error "KeyError: label missing from label_to_color_map"))) ∧
      (pyLower dataset_name ≠ pyLower datasetTypeCoraName →
        assignVertexColors dataset_name node_labels = Except.ok none) := by
  refine ⟨rfl, fun dataset_name node_labels => ⟨fun hcora => ⟨?_, ?_⟩, fun hne => ?_⟩⟩
  · constructor
    · intro hall
      obtain ⟨cs, hcs⟩ := (lookupColors_some_iff node_labels).mpr hall
      exact ⟨cs, by simp [assignVertexColors, hcora, hcs]⟩
    · rintro ⟨cs, hcs⟩
      simp only [assignVertexColors, if_pos hcora] at hcs
      cases hr : lookupColors node_labels with
      | none => rw [hr] at hcs; simp at hcs
      | some cs' => exact (lookupColors_some_iff node_labels).mp ⟨cs', hr⟩
  · intro hnotall
    have hnone : lookupColors node_labels = none := by
      cases hr : lookupColors node_labels with
      | none => rfl
      | some cs =>
        exact absurd ((lookupColors_some_iff node_labels).mp ⟨cs, hr⟩) hnotall
    simp [assignVertexColors, hcora, hnone]
  · simp [assignVertexColors, hne]

/-- Witness for C10 at dataset name "Cora" with labels 0, 3, 6 (all in
range, so coloring succeeds). -/
theorem c10_witness :
    ∃ cs, assignVertexColors "Cora" [0, 3, 6] = Except.ok (some cs) :=
  ((c10_cora_label_colors.2 "Cora" [0, 3, 6]).1 rfl).1.mp (by decide)

/-- C1: for every square adjacency matrix whose in-shape entries are all
0 or 1, `convert_adj_to_edge_index` succeeds and placing a 1 at
(src, trg) for every returned pair (0 elsewhere) rebuilds the original
matrix on every in-shape cell. -/
theorem c1_adj_roundtrip (A : NDArray) (hsq : A.shape0 = A.shape1)
    (hbin : ∀ i, i < A.shape0 → ∀ j, j < A.shape1 →
      A.entry i j = NpVal.fin 0 ∨ A.entry i j = NpVal.fin 1) :
    ∃ s t, convert_adj_to_edge_index A = Except.ok (s, t) ∧
      ∀ i, i < A.shape0 → ∀ j, j < A.shape1 →
        rebuildAdj (s.zip t) i j = A.entry i j := by
  have hinf : A.anyInf = false := by
    rw [← Bool.not_eq_true, anyInf_iff]
    rintro ⟨i, hi, j, hj, hij⟩
    rcases hbin i hi j hj with h | h <;> simp [h, NpVal.isInf] at hij
  have hact : activeValue A = 1 := by simp [activeValue, hinf]
  refine ⟨(convertPairs A (activeValue A)).map Prod.fst,
          (convertPairs A (activeValue A)).map Prod.snd,
          by simp [convert_adj_to_edge_index, hsq], ?_⟩
  intro i hi j hj
  rw [zip_fst_snd]
  unfold rebuildAdj
  by_cases hmem : (i, j) ∈ convertPairs A (activeValue A)
  · rw [if_pos hmem]
    have h1 := (mem_convertPairs.mp hmem).2.2
    rw [hact] at h1
    exact h1.symm
  · rw [if_neg hmem]
    rcases hbin i hi j hj with h | h
    · exact h.symm
    · exact absurd (mem_convertPairs.mpr ⟨hi, hj, by rw [hact]; exact h⟩) hmem

/-- Witness for C1 at the binary 2×2 matrix `[[0,1],[1,0]]`. -/
theorem c1_witness :
    ∃ s t, convert_adj_to_edge_index (NDArray.ofRows [[0, 1], [1, 0]])
        = Except.ok (s, t) ∧
      ∀ i, i < (NDArray.ofRows [[0, 1], [1, 0]]).shape0 →
        ∀ j, j < (NDArray.ofRows [[0, 1], [1, 0]]).shape1 →
          rebuildAdj (s.zip t) i j = (NDArray.ofRows [[0, 1], [1, 0]]).entry i j :=
  c1_adj_roundtrip (NDArray.ofRows [[0, 1], [1, 0]]) rfl (by decide)

/-- C2: when a square matrix has an infinite entry in shape,
`convert_adj_to_edge_index` emits exactly the (row, column) pairs whose
cell equals 0; with no infinite entry it emits exactly the pairs whose
cell equals 1. -/
theorem c2_active_value_detection (A : NDArray) (hsq : A.shape0 = A.shape1)
    (s t : List Nat) (hok : convert_adj_to_edge_index A = Except.ok (s, t)) :
    ((∃ i, i < A.shape0 ∧ ∃ j, j < A.shape1 ∧ (A.entry i j).isInf = true) →
      ∀ i j, ((i, j) ∈ s.zip t ↔
        i < A.shape0 ∧ j < A.shape1 ∧ A.entry i j = NpVal.fin 0)) ∧
    ((¬ ∃ i, i < A.shape0 ∧ ∃ j, j < A.shape1 ∧ (A.entry i j).isInf = true) →
      ∀ i j, ((i, j) ∈ s.zip t ↔
        i < A.shape0 ∧ j < A.shape1 ∧ A.entry i j = NpVal.fin 1)) := by
  have hconv : convert_adj_to_edge_index A
      = Except.ok ((convertPairs A (activeValue A)).map Prod.fst,
                   (convertPairs A (activeValue A)).map Prod.snd) := by
    simp [convert_adj_to_edge_index, hsq]
  rw [hconv] at hok
  have hpair := Except.ok.inj hok
  have hs : s = (convertPairs A (activeValue A)).map Prod.fst :=
    (congrArg Prod.fst hpair).symm
  have ht : t = (convertPairs A (activeValue A)).map Prod.snd :=
    (congrArg Prod.snd hpair).symm
  rw [hs, ht, zip_fst_snd]
  constructor
  · intro hex i j
    have hact : activeValue A = 0 := by
      simp [activeValue, (anyInf_iff A).mpr hex]
    rw [← hact]
    exact mem_convertPairs
  · intro hnex i j
    have hinf : A.anyInf = false := by
      rw [← Bool.not_eq_true, anyInf_iff]
      exact hnex
    have hact : activeValue A = 1 := by simp [activeValue, hinf]
    rw [← hact]
    exact mem_convertPairs

/-- Witness for C2 at the masked matrix `[[-inf, 0], [0, -inf]]`,
instantiated at the cell (0, 1). -/
theorem c2_witness :
    ((0, 1) ∈ ([0, 1] : List Nat).zip ([1, 0] : List Nat) ↔
      0 < (NDArray.ofValRows [[NpVal.ninf, NpVal.fin 0], [NpVal.fin 0, NpVal.ninf]]).shape0 ∧
      1 < (NDArray.ofValRows [[NpVal.ninf, NpVal.fin 0], [NpVal.fin 0, NpVal.ninf]]).shape1 ∧
      (NDArray.ofValRows [[NpVal.ninf, NpVal.fin 0], [NpVal.fin 0, NpVal.ninf]]).entry 0 1
        = NpVal.fin 0) :=
  ((c2_active_value_detection
      (NDArray.ofValRows [[NpVal.ninf, NpVal.fin 0], [NpVal.fin 0, NpVal.ninf]])
      rfl [0, 1] [1, 0] rfl).1 ⟨0, by decide, 0, by decide, by decide⟩) 0 1

/-- C3: whatever `convert_adj_to_edge_index` returns is exactly the
row-major list of cells equal to the detected active value, reshaped as
the parallel source and target sequences. -/
theorem c3_row_major_scan (A : NDArray) (s t : List Nat)
    (hok : convert_adj_to_edge_index A = Except.ok (s, t)) :
    s = ((rowMajorCells A.shape0 A.shape1).filter
          (fun p => decide (A.entry p.1 p.2 = NpVal.fin (activeValue A)))).map
        Prod.fst ∧
    t = ((rowMajorCells A.shape0 A.shape1).filter
          (fun p => decide (A.entry p.1 p.2 = NpVal.fin (activeValue A)))).map
        Prod.snd := by
  by_cases hsq : A.shape0 = A.shape1
  · have hconv : convert_adj_to_edge_index A
        = Except.ok ((convertPairs A (activeValue A)).map Prod.fst,
                     (convertPairs A (activeValue A)).map Prod.snd) := by
      simp [convert_adj_to_edge_index, hsq]
    rw [hconv] at hok
    have hpair := Except.ok.inj hok
    have hs : s = (convertPairs A (activeValue A)).map Prod.fst :=
      (congrArg Prod.fst hpair).symm
    have ht : t = (convertPairs A (activeValue A)).map Prod.snd :=
      (congrArg Prod.snd hpair).symm
    rw [hs, ht, convertPairs_eq_filter]
    exact ⟨rfl, rfl⟩
  · simp [convert_adj_to_edge_index, hsq] at hok

/-- Witness for C3 at the binary matrix `[[0,1],[1,0]]`, whose
conversion returns sources `[0,1]` and targets `[1,0]`. -/
theorem c3_witness :
    [0, 1] = ((rowMajorCells (NDArray.ofRows [[0, 1], [1, 0]]).shape0
          (NDArray.ofRows [[0, 1], [1, 0]]).shape1).filter
        (fun p => decide ((NDArray.ofRows [[0, 1], [1, 0]]).entry p.1 p.2
          = NpVal.fin (activeValue (NDArray.ofRows [[0, 1], [1, 0]]))))).map
        Prod.fst ∧
    [1, 0] = ((rowMajorCells (NDArray.ofRows [[0, 1], [1, 0]]).shape0
          (NDArray.ofRows [[0, 1], [1, 0]]).shape1).filter
        (fun p => decide ((NDArray.ofRows [[0, 1], [1, 0]]).entry p.1 p.2
          = NpVal.fin (activeValue (NDArray.ofRows [[0, 1], [1, 0]]))))).map
        Prod.snd :=
  c3_row_major_scan (NDArray.ofRows [[0, 1], [1, 0]]) [0, 1] [1, 0] rfl

/-- C8 counterexample: a graph whose single edge has betweenness 1 — a
positive value — makes every clipped log equal 0, so the normalization
divides by zero (NaN entries in NumPy; 0 under Lean's division) and the
maximum normalized weight is not 1. -/
theorem c8_counterexample :
    ((1 : ℝ) ∈ [(1 : ℝ)] ∧ (0 : ℝ) < 1) ∧
      npMaxR (edge_weights_raw_normalized [1]) ≠ 1 := by
  refine ⟨⟨by simp, by norm_num⟩, ?_⟩
  simp [edge_weights_raw_normalized, edge_weights_raw, npMaxR, Real.log_one]

/-- C8 amended: in the igraph branch, for every graph in which at least
one edge has betweenness strictly greater than 1 (so its clipped log is
positive), the normalized edge-weight vector (clip of log, divided by
its maximum, before the 6th power) attains a maximum of exactly 1. -/
theorem c8_amended_normalized_max (betweenness : List ℝ)
    (h : ∃ b ∈ betweenness, 1 < b) :
    npMaxR (edge_weights_raw_normalized betweenness) = 1 := by
  obtain ⟨b, hmem, hb⟩ := h
  have hmemraw : max (Real.log b) 0 ∈ edge_weights_raw betweenness :=
    List.mem_map_of_mem _ hmem
  have hposb : 0 < max (Real.log b) 0 :=
    lt_max_iff.mpr (Or.inl (Real.log_pos hb))
  have hpos : 0 < npMaxR (edge_weights_raw betweenness) :=
    lt_of_lt_of_le hposb (le_npMaxR hmemraw)
  have hne : edge_weights_raw betweenness ≠ [] := by
    intro hnil
    rw [hnil] at hmemraw
    exact (List.not_mem_nil _) hmemraw
  unfold edge_weights_raw_normalized
  rw [npMaxR_map_div _ _ hpos.le hne, div_self hpos.ne']

/-- Witness for the amended C8 at the betweenness list `[2]`. -/
theorem c8_witness : npMaxR (edge_weights_raw_normalized [2]) = 1 :=
  c8_amended_normalized_max [2] ⟨2, by simp, by norm_num⟩
